import Mathlib

/-!
Formal model of the retrieve core of skuid-cli (src/cmd/retrieve.go, plus the
ziputils archive builder), with proofs of the specified properties.

Conventions of the embedding:
* JSON numbers are modelled as integers (the claims only involve integer
  numerals); string escaping inside JSON strings is not modelled.
* Byte streams that are JSON documents are modelled by the parsed value; byte
  streams that are not valid JSON are modelled by a raw string.
* The filesystem is an explicit in-memory value threaded through the
  operations; the injected FileCreator / DirectoryCreator / FileReader
  behaviors of the source are modelled directly over it.
-/

set_option maxHeartbeats 1000000

namespace Skuid

/-- JSON values. -/
inductive JSON where
  | null
  | bool (b : Bool)
  | num (n : Int)
  | str (s : String)
  | arr (elems : List JSON)
  | obj (fields : List (String × JSON))

/-- Fields of a JSON object; empty for any non-object value. -/
def objFields : JSON → List (String × JSON)
  | .obj fs => fs
  | _ => []

/-- Does a field list contain the key. -/
def hasKey (l : List (String × JSON)) (k : String) : Bool :=
  l.any (fun kv => kv.1 == k)

/-- First value bound to a key in an object (none for non-objects). -/
def getKey (j : JSON) (k : String) : Option JSON :=
  ((objFields j).find? (fun kv => kv.1 == k)).map (fun kv => kv.2)

/-- First value bound to a key in a field list, defaulting to null when the
key is absent (the RFC 7396 recursion treats an absent member like a
non-object value). -/
def lookupD (l : List (String × JSON)) (k : String) : JSON :=
  ((l.find? (fun kv => kv.1 == k)).map (fun kv => kv.2)).getD .null

/-- Is the value the JSON null literal. -/
def isNull : JSON → Bool
  | .null => true
  | _ => false

mutual
/-- Modelled from the spec: the JSON Merge Patch (RFC 7396) performed by the
jsonpatch library that combineJSONFile in src/cmd/retrieve.go calls (the
library itself is a dependency, not under src/). Fields present in the patch
overwrite the same field of the target; a null patch field removes the field;
object fields merge recursively; non-object patch values replace the target
value. The order of the result fields (kept target fields first, then patch
fields) is irrelevant to the program's observable output, which sorts all
keys at serialization time. -/
def mergePatch (t : JSON) : JSON → JSON
  | .obj pf =>
      .obj ((objFields t).filter (fun kv => !(hasKey pf kv.1)) ++ mergeInto (objFields t) pf)
  | p => p
termination_by structural p => p

/-- Process the patch fields against a target field list: null values drop
the field, any other value merges recursively over the target's binding. -/
def mergeInto (tf : List (String × JSON)) : List (String × JSON) → List (String × JSON)
  | [] => []
  | (k, v) :: rest =>
      if isNull v then mergeInto tf rest
      else (k, mergePatch (lookupD tf k) v) :: mergeInto tf rest
termination_by structural l => l
end

/-- All keys of the list are pairwise distinct. -/
def distinctKeys : List String → Bool
  | [] => true
  | k :: ks => !(ks.contains k) && distinctKeys ks

mutual
/-- Well-formed JSON: every object, at every nesting level, has pairwise
distinct keys (as is the case for any document parsed from bytes). -/
def wf : JSON → Bool
  | .null => true
  | .bool _ => true
  | .num _ => true
  | .str _ => true
  | .arr xs => wfList xs
  | .obj fs => distinctKeys (fs.map (fun kv => kv.1)) && wfFields fs
termination_by structural j => j

/-- Well-formedness of a list of JSON values. -/
def wfList : List JSON → Bool
  | [] => true
  | x :: xs => wf x && wfList xs
termination_by structural l => l

/-- Well-formedness of the values of a field list. -/
def wfFields : List (String × JSON) → Bool
  | [] => true
  | (_, v) :: fs => wf v && wfFields fs
termination_by structural l => l
end

/-- Lexicographic comparison of character lists (Go compares strings
byte-wise; for UTF-8 the byte order and the codepoint order coincide).
Implemented directly so that it evaluates by reduction. -/
def charsLt : List Char → List Char → Bool
  | [], [] => false
  | [], _ :: _ => true
  | _ :: _, [] => false
  | a :: as, b :: bs =>
      if a < b then true
      else if b < a then false
      else charsLt as bs

/-- String less-than, as Go's comparison of the two keys. -/
def strLt (a b : String) : Bool :=
  charsLt a.data b.data

/-- The key comparator of nameFirstKeySorter.Sort in src/cmd/retrieve.go:
the key "name" sorts before every other key; all other pairs compare in
ascending string order. -/
def nameFirstSort (keyA keyB : String) : Bool :=
  if keyA = "name" then true
  else if keyB = "name" then false
  else strLt keyA keyB

/-- Insert a field into a list sorted by nameFirstSort. -/
def insertKey (kv : String × JSON) : List (String × JSON) → List (String × JSON)
  | [] => [kv]
  | x :: xs => if nameFirstSort kv.1 x.1 then kv :: x :: xs else x :: insertKey kv xs

/-- Sort a field list by nameFirstSort on the keys (insertion sort). -/
def sortFields : List (String × JSON) → List (String × JSON)
  | [] => []
  | x :: xs => insertKey x (sortFields xs)

mutual
/-- Modelled from the spec: the map-key ordering the jsoniter configuration
of combineJSONFile applies when marshaling the merged document — every
object's fields, at every nesting level, are emitted sorted by the
nameFirstSort comparator. -/
def sortJSON : JSON → JSON
  | .null => .null
  | .bool b => .bool b
  | .num n => .num n
  | .str s => .str s
  | .arr xs => .arr (sortList xs)
  | .obj fs => .obj (sortFields (sortVals fs))
termination_by structural j => j

/-- Sort every element of a list of JSON values. -/
def sortList : List JSON → List JSON
  | [] => []
  | x :: xs => sortJSON x :: sortList xs
termination_by structural l => l

/-- Sort the values of a field list (the keys are sorted by sortFields). -/
def sortVals : List (String × JSON) → List (String × JSON)
  | [] => []
  | (k, v) :: fs => (k, sortJSON v) :: sortVals fs
termination_by structural l => l
end

/-- A run of tab characters, one per nesting level. -/
def tabs : Nat → String
  | 0 => ""
  | n + 1 => "\t" ++ tabs n

/-- Quoted JSON string (escaping not modelled; the claims use plain keys). -/
def quoteStr (s : String) : String :=
  "\"" ++ s ++ "\""

mutual
/-- Modelled from the spec: the pretty-printed serialization of the merged
document — compact marshaling followed by re-indentation with one tab per
nesting level, a newline after every opening bracket and comma, and the
closing bracket on its own line at the enclosing level (the behavior of the
standard-library Indent combineJSONFile applies to the marshaled bytes). -/
def render : JSON → Nat → String
  | .null, _ => "null"
  | .bool true, _ => "true"
  | .bool false, _ => "false"
  | .num n, _ => toString n
  | .str s, _ => quoteStr s
  | .arr [], _ => "[]"
  | .arr (x :: xs), d =>
      "[\n" ++ renderElems (x :: xs) (d + 1) ++ "\n" ++ tabs d ++ "]"
  | .obj [], _ => "\x7b\x7d"
  | .obj (kv :: fs), d =>
      "\x7b\n" ++ renderFields (kv :: fs) (d + 1) ++ "\n" ++ tabs d ++ "\x7d"
termination_by structural j _ => j

/-- Render array elements, one per line at the given depth. -/
def renderElems : List JSON → Nat → String
  | [], _ => ""
  | [x], d => tabs d ++ render x d
  | x :: y :: xs, d => tabs d ++ render x d ++ ",\n" ++ renderElems (y :: xs) d
termination_by structural l _ => l

/-- Render object fields, one per line at the given depth. -/
def renderFields : List (String × JSON) → Nat → String
  | [], _ => ""
  | [(k, v)], d => tabs d ++ quoteStr k ++ ": " ++ render v d
  | (k, v) :: kv2 :: fs, d =>
      tabs d ++ quoteStr k ++ ": " ++ render v d ++ ",\n" ++ renderFields (kv2 :: fs) d
termination_by structural l _ => l
end

/-- The bytes combineJSONFile hands back for a merged document: the merge
result marshaled with nameFirstSort key ordering and indented with one tab
per nesting level. -/
def serializeJSON (v : JSON) : String :=
  render (sortJSON v) 0

/-- The keys are in strictly ascending lexicographic order. -/
def strictAsc : List String → Bool
  | [] => true
  | [_] => true
  | a :: b :: t => strLt a b && strictAsc (b :: t)

/-- The ordering rule of the spec, stated independently of the comparator:
the key "name", when present, comes first, and all remaining keys follow in
strictly ascending lexicographic order. -/
def nameFirstOrdered (l : List String) : Bool :=
  let rest := l.filter (fun k => k != "name")
  strictAsc rest && (if l.contains "name" then l == "name" :: rest else l == rest)

mutual
/-- Every object of the value, at every nesting level, lists its keys in the
spec's order: "name" first when present, the rest strictly ascending. -/
def ordered : JSON → Bool
  | .null => true
  | .bool _ => true
  | .num _ => true
  | .str _ => true
  | .arr xs => orderedList xs
  | .obj fs => nameFirstOrdered (fs.map (fun kv => kv.1)) && orderedFields fs
termination_by structural j => j

/-- Ordering of every element of a list of JSON values. -/
def orderedList : List JSON → Bool
  | [] => true
  | x :: xs => ordered x && orderedList xs
termination_by structural l => l

/-- Ordering of the values of a field list. -/
def orderedFields : List (String × JSON) → Bool
  | [] => true
  | (_, v) :: fs => ordered v && orderedFields fs
termination_by structural l => l
end

/-- Errors surfaced by the retrieve core. -/
inductive Err where
  | mergeError
  | fileNotFound
  | openError
  | copyFailed
  | tempFileFailed
  | walkError
  | ioError
deriving DecidableEq

/-- A byte stream: either bytes that parse as a JSON value, or bytes that
are not valid JSON. -/
inductive Content where
  | json (v : JSON)
  | raw (s : String)

/-- In-memory filesystem: file paths with contents, and directory paths. -/
structure FS where
  files : List (String × Content)
  dirs : List String

/-- The empty filesystem. -/
def emptyFS : FS := ⟨[], []⟩

/-- Content of the file at a path, when one exists. -/
def getFile (fs : FS) (p : String) : Option Content :=
  (fs.files.find? (fun f => f.1 == p)).map (fun f => f.2)

/-- Write a file, truncating any existing file at the path (writeNewFile in
src/cmd/retrieve.go opens with O_CREATE, O_WRONLY and O_TRUNC). -/
def putFile (fs : FS) (p : String) (c : Content) : FS :=
  ⟨(p, c) :: fs.files.filter (fun f => f.1 != p), fs.dirs⟩

/-- os.Stat succeeds when something exists at the path — a directory or a
file of any kind. -/
def statOk (fs : FS) (p : String) : Bool :=
  fs.dirs.contains p || fs.files.any (fun f => f.1 == p)

/-- os.MkdirAll on the in-memory filesystem (never fails). -/
def mkdirAll (fs : FS) (p : String) : FS :=
  ⟨fs.files, p :: fs.dirs⟩

/-- createDirectory in src/cmd/retrieve.go: stat the path; only when stat
fails is the directory created with MkdirAll; when something already exists
at the path it returns nil without touching the filesystem. -/
def createDirectory (fs : FS) (p : String) : FS × Option Err :=
  if statOk fs p then (fs, none) else (mkdirAll fs p, none)

/-- readExistingFile in src/cmd/retrieve.go (ioutil.ReadFile). -/
def readExistingFile (fs : FS) (p : String) : Except Err Content :=
  match getFile fs p with
  | some c => .ok c
  | none => .error .fileNotFound

/-- Modelled from the spec: jsonpatch.MergePatch (the library is a
dependency, not under src/) fails unless both inputs are valid JSON whose
top-level values are objects; on success it returns the merge patch
result. -/
def mergePatchDocs : Content → Content → Except Err JSON
  | .json (.obj tf), .json (.obj pf) => .ok (mergePatch (.obj tf) (.obj pf))
  | _, _ => .error .mergeError

/-- combineJSONFile in src/cmd/retrieve.go: read the existing file at the
path, merge the new content onto it, and return the merged document (whose
bytes are serializeJSON of it, the tab-indented key-sorted form). -/
def combineJSONFile (fs : FS) (newContent : Content) (path : String) : Except Err JSON :=
  match readExistingFile fs path with
  | .error e => .error e
  | .ok existing => mergePatchDocs existing newContent

/-- Accumulate characters of a path segment until the separator
(strings.Split on the path separator). -/
def splitAux : List Char → String → List String
  | [], cur => [cur]
  | c :: cs, cur => if c = '/' then cur :: splitAux cs "" else splitAux cs (cur.push c)

/-- strings.Split of a path at the separator; never empty. -/
def splitOnSep (s : String) : List String :=
  splitAux s.data ""

/-- strings.Join of path segments with the separator. -/
def joinSegs : List String → String
  | [] => ""
  | [s] => s
  | s :: s2 :: rest => s ++ "/" ++ joinSegs (s2 :: rest)

/-- filepath.Join of the target directory and an entry name (path cleaning
beyond the empty-target case is not modelled; the claims use clean paths). -/
def joinPath (target name : String) : String :=
  if target = "" then name else target ++ "/" ++ name

/-- One record of a ZIP archive: a name relative to the archive root, a
directory flag, and the content stream. -/
structure ZipEntry where
  name : String
  isDir : Bool
  content : Content

/-- readFileFromZipAndWriteToFilesystem in src/cmd/retrieve.go: compute the
intermediate directory of the destination; when there is none, skip the
entry (nothing is ever written at the root); otherwise ensure the directory
exists, create directory entries directly, and write file entries — merging
with the existing file via combineJSONFile when the path was already
written this run, else writing the entry content as is. Opening the entry
content is modelled as succeeding. -/
def readFileFromZipAndWriteToFilesystem (fs : FS) (entry : ZipEntry) (fullPath : String)
    (fileAlreadyWritten : Bool) : FS × Option Err :=
  let intermediatePath := joinSegs (splitOnSep fullPath).dropLast
  if intermediatePath = "" then
    (fs, none)
  else
    match createDirectory fs intermediatePath with
    | (fs1, some e) => (fs1, some e)
    | (fs1, none) =>
      if entry.isDir then createDirectory fs1 fullPath
      else if fileAlreadyWritten then
        match combineJSONFile fs1 entry.content fullPath with
        | .error e => (fs1, some e)
        | .ok merged => (putFile fs1 fullPath (.json merged), none)
      else (putFile fs1 fullPath entry.content, none)

/-- The entry loop of unzip in src/cmd/retrieve.go. For each entry: join the
target and the entry name, look the path up in the registry, register it
when absent (before the write), and call
readFileFromZipAndWriteToFilesystem — whose returned error the source
discards (the call on line 177 ignores the return value). The third
component is the trace of (path, alreadyWritten) pairs passed down, one per
entry in order. -/
def unzipLoop (target : String) :
    List ZipEntry → List String → FS → List String × FS × List (String × Bool)
  | [], pm, fs => (pm, fs, [])
  | e :: rest, pm, fs =>
      let path := joinPath target e.name
      let already := pm.contains path
      let pm1 := if already then pm else path :: pm
      let out := readFileFromZipAndWriteToFilesystem fs e path already
      let r := unzipLoop target rest pm1 out.1
      (r.1, r.2.1, (path, already) :: r.2.2)

/-- unzip in src/cmd/retrieve.go over an already-opened archive: ensure a
non-empty target directory exists, then process every entry. It returns
without error in the model: the per-entry errors are discarded by the
source, the in-memory directory creator cannot fail, and failures of
zip.OpenReader are modelled at the payload level. -/
def unzip (entries : List ZipEntry) (target : String) (pm : List String) (fs : FS) :
    List String × FS :=
  let fs0 := if target = "" then fs else (createDirectory fs target).1
  let r := unzipLoop target entries pm fs0
  (r.1, r.2.1)

/-- One archive payload as the orchestrator sees it: a stream that spools
and opens fine (with its entries), or one of the failure modes of
createTemporaryZipFile and zip.OpenReader. -/
inductive Payload where
  | ok (entries : List ZipEntry)
  | badZip
  | copyFails
  | tempFileFails

/-- Orchestrator state: the filesystem, the shared path registry, the
temporary files currently existing on disk (identified by the index of the
payload that created them), and the removals deferred to the return of
writeResultsToDisk. -/
structure RunState where
  fs : FS
  pathMap : List String
  tempsOnDisk : List Nat
  deferredRemoves : List Nat

/-- The payload loop of writeResultsToDisk in src/cmd/retrieve.go.
tempFileFails: ioutil.TempFile fails, no file is created, the error is
returned. copyFails: the temp file was created, io.Copy into it fails,
createTemporaryZipFile returns the error without the file name — so no
removal is ever scheduled for that file. badZip: spooling succeeds, unzip
fails opening the archive; the deferred removal was scheduled before the
error check. ok: spooling succeeds, unzip runs (never failing in the
model), removal is scheduled, and the loop continues. -/
def processPayloads (target : String) : List Payload → Nat → RunState → RunState × Option Err
  | [], _, st => (st, none)
  | .tempFileFails :: _, _, st => (st, some .tempFileFailed)
  | .copyFails :: _, i, st =>
      ({ st with tempsOnDisk := i :: st.tempsOnDisk }, some .copyFailed)
  | .badZip :: _, i, st =>
      ({ st with tempsOnDisk := i :: st.tempsOnDisk,
                 deferredRemoves := i :: st.deferredRemoves }, some .openError)
  | .ok entries :: rest, i, st =>
      let r := unzip entries target st.pathMap st.fs
      processPayloads target rest (i + 1)
        { fs := r.2, pathMap := r.1,
          tempsOnDisk := i :: st.tempsOnDisk,
          deferredRemoves := i :: st.deferredRemoves }

/-- Is the first list a prefix of the second. -/
def charsPrefix : List Char → List Char → Bool
  | [], _ => true
  | _ :: _, [] => false
  | a :: as, b :: bs => a == b && charsPrefix as bs

/-- os.RemoveAll of one directory tree. -/
def removeTree (fs : FS) (dir : String) : FS :=
  ⟨fs.files.filter (fun f => !(f.1 == dir || charsPrefix (dir ++ "/").data f.1.data)),
   fs.dirs.filter (fun d => !(d == dir || charsPrefix (dir ++ "/").data d.data))⟩

/-- The clean-slate loop of writeResultsToDisk: os.RemoveAll of every known
metadata directory under the target. -/
def clearMetadataDirs (metadataDirNames : List String) (target : String) (fs : FS) : FS :=
  metadataDirNames.foldl (fun acc d => removeTree acc (joinPath target d)) fs

/-- writeResultsToDisk in src/cmd/retrieve.go: clear the metadata
directories, start from a fresh empty path registry shared by all archives
of the run, process the payloads stopping at the first error, and — when
the function returns, on success and on error alike — run the deferred
removals of the temporary files whose removal was scheduled. -/
def writeResultsToDisk (metadataDirNames : List String) (target : String)
    (payloads : List Payload) (fs : FS) : RunState × Option Err :=
  let fs0 := clearMetadataDirs metadataDirNames target fs
  let r := processPayloads target payloads 0 ⟨fs0, [], [], []⟩
  ({ r.1 with
      tempsOnDisk := r.1.tempsOnDisk.filter (fun i => !(r.1.deferredRemoves.contains i)),
      deferredRemoves := [] }, r.2)

/-- One step the directory walk of Archive (the ziputils source) delivers
to the callback: a directory, a readable file, an I/O failure at a file
(standing for any of the os.Open, filepath.Rel, zipWriter.Create or io.Copy
failures), or a failure reported by the walk itself. -/
inductive WalkItem where
  | dir (path : String)
  | file (path : String) (content : String)
  | fileFailure (path : String)
  | walkFailure

/-- The walk callback loop of Archive: directories are skipped, files are
added to the archive in order, and any failure aborts the walk and becomes
the walk's returned error. -/
def archiveWalk : List WalkItem → List (String × String) → List (String × String) × Option Err
  | [], acc => (acc, none)
  | .dir _ :: rest, acc => archiveWalk rest acc
  | .file p c :: rest, acc => archiveWalk rest (acc ++ [(p, c)])
  | .fileFailure _ :: _, acc => (acc, some .ioError)
  | .walkFailure :: _, acc => (acc, some .walkError)

/-- Result of Archive: the entries written to the stream, whether the zip
writer was finalized with Close, and the returned error. -/
structure ArchiveResult where
  entries : List (String × String)
  closed : Bool
  err : Option Err

/-- Archive in the ziputils source: walk the tree writing file entries; when
the walk returns an error, Archive returns it immediately — zipWriter.Close
runs only after a walk that returned no error (the relative-path
computation, irrelevant to these claims, is not modelled; Close itself is
modelled as succeeding). -/
def Archive (items : List WalkItem) : ArchiveResult :=
  match archiveWalk items [] with
  | (es, some e) => ⟨es, false, some e⟩
  | (es, none) => ⟨es, true, none⟩

/-- No failure occurs among the walk items. -/
def cleanItems : List WalkItem → Bool
  | [] => true
  | .dir _ :: rest => cleanItems rest
  | .file _ _ :: rest => cleanItems rest
  | .fileFailure _ :: _ => false
  | .walkFailure :: _ => false

/-! Helper lemmas about the extraction pipeline. -/

theorem joinSegs_dropLast_of_length_one (l : List String) (h : l.length = 1) :
    joinSegs l.dropLast = "" := by
  cases l with
  | nil => simp at h
  | cons a t =>
    cases t with
    | nil => rfl
    | cons b t2 => simp at h

theorem not_mem_of_not_contains {x : Nat} {l : List Nat}
    (h : (!(l.contains x)) = true) : x ∉ l := by
  intro hm
  have hc : l.contains x = true := List.elem_eq_true_of_mem hm
  rw [hc] at h
  simp at h

theorem processPayloads_temps_covered (target : String) :
    ∀ (ps : List Payload) (i : Nat) (st : RunState),
      (∀ x ∈ st.tempsOnDisk, x ∈ st.deferredRemoves) →
      ∀ x ∈ (processPayloads target ps i st).1.tempsOnDisk,
        x ∈ (processPayloads target ps i st).1.deferredRemoves
        ∨ ∃ j, x = i + j ∧ ps[j]? = some Payload.copyFails := by
  intro ps
  induction ps with
  | nil =>
    intro i st hinv x hx
    simp only [processPayloads] at hx ⊢
    exact Or.inl (hinv x hx)
  | cons p rest ih =>
    intro i st hinv x hx
    cases p with
    | tempFileFails =>
      simp only [processPayloads] at hx ⊢
      exact Or.inl (hinv x hx)
    | copyFails =>
      simp only [processPayloads] at hx ⊢
      rcases List.mem_cons.mp hx with he | hm
      · exact Or.inr ⟨0, by simp [he], by simp⟩
      · exact Or.inl (hinv x hm)
    | badZip =>
      simp only [processPayloads] at hx ⊢
      rcases List.mem_cons.mp hx with he | hm
      · exact Or.inl (List.mem_cons.mpr (Or.inl he))
      · exact Or.inl (List.mem_cons.mpr (Or.inr (hinv x hm)))
    | ok entries =>
      simp only [processPayloads] at hx ⊢
      rcases ih (i + 1) _ (fun y hy => by
          rcases List.mem_cons.mp hy with he | hm
          · exact List.mem_cons.mpr (Or.inl he)
          · exact List.mem_cons.mpr (Or.inr (hinv y hm))) x hx with h | ⟨j, hj, hget⟩
      · exact Or.inl h
      · refine Or.inr ⟨j + 1, ?_, ?_⟩
        · rw [hj]
          omega
        · simpa using hget

theorem archiveWalk_clean_then_failure (p : String) :
    ∀ (pre : List WalkItem), cleanItems pre = true →
      ∀ (rest : List WalkItem) (acc : List (String × String)),
        (archiveWalk (pre ++ WalkItem.fileFailure p :: rest) acc).2 = some Err.ioError := by
  intro pre
  induction pre with
  | nil => intro _ rest acc; rfl
  | cons w t ih =>
    intro hc rest acc
    cases w with
    | dir q => exact ih (by simpa [cleanItems] using hc) rest acc
    | file q c => exact ih (by simpa [cleanItems] using hc) rest (acc ++ [(q, c)])
    | fileFailure q => simp [cleanItems] at hc
    | walkFailure => simp [cleanItems] at hc

theorem contains_eq_decide_mem (l : List String) (a : String) :
    l.contains a = decide (a ∈ l) := by
  by_cases h : a ∈ l
  · simp [h, List.elem_eq_true_of_mem h]
  · cases hc : l.contains a
    · simp [h]
    · exact absurd (List.mem_of_elem_eq_true hc) h

theorem unzipLoop_mem (target : String) :
    ∀ (entries : List ZipEntry) (pm : List String) (fs : FS) (p : String),
      p ∈ (unzipLoop target entries pm fs).1
        ↔ p ∈ pm ∨ p ∈ entries.map (fun e => joinPath target e.name) := by
  intro entries
  induction entries with
  | nil =>
    intro pm fs p
    simp [unzipLoop]
  | cons e rest ih =>
    intro pm fs p
    simp only [unzipLoop, List.map_cons, List.mem_cons]
    rw [ih, contains_eq_decide_mem]
    by_cases hc : joinPath target e.name ∈ pm
    · simp only [hc, decide_True, if_true]
      constructor
      · rintro (h | h)
        · exact Or.inl h
        · exact Or.inr (Or.inr h)
      · rintro (h | h | h)
        · exact Or.inl h
        · subst h; exact Or.inl hc
        · exact Or.inr h
    · simp only [hc, decide_False, Bool.false_eq_true, if_false, List.mem_cons]
      constructor
      · rintro ((h | h) | h)
        · exact Or.inr (Or.inl h)
        · exact Or.inl h
        · exact Or.inr (Or.inr h)
      · rintro (h | h | h)
        · exact Or.inl (Or.inr h)
        · exact Or.inl (Or.inl h)
        · exact Or.inr h

theorem unzipLoop_nodup (target : String) :
    ∀ (entries : List ZipEntry) (pm : List String) (fs : FS),
      pm.Nodup → (unzipLoop target entries pm fs).1.Nodup := by
  intro entries
  induction entries with
  | nil =>
    intro pm fs h
    simpa [unzipLoop] using h
  | cons e rest ih =>
    intro pm fs h
    simp only [unzipLoop]
    apply ih
    rw [contains_eq_decide_mem]
    by_cases hc : joinPath target e.name ∈ pm
    · simpa [hc] using h
    · simp only [hc, decide_False, Bool.false_eq_true, if_false]
      exact List.nodup_cons.mpr ⟨hc, h⟩

theorem unzipLoop_trace_paths (target : String) :
    ∀ (entries : List ZipEntry) (pm : List String) (fs : FS),
      ((unzipLoop target entries pm fs).2.2.map (fun q => q.1))
        = entries.map (fun e => joinPath target e.name) := by
  intro entries
  induction entries with
  | nil => intro pm fs; rfl
  | cons e rest ih =>
    intro pm fs
    simp only [unzipLoop, List.map_cons]
    rw [ih]

theorem mem_register_iff (x path : String) (pm L : List String) :
    ((x ∈ (if pm.contains path = true then pm else path :: pm)) ∨ x ∈ L)
      ↔ (x ∈ pm ∨ x ∈ path :: L) := by
  by_cases hc : path ∈ pm
  · rw [if_pos (List.elem_eq_true_of_mem hc), List.mem_cons]
    constructor
    · rintro (h | h)
      · exact Or.inl h
      · exact Or.inr (Or.inr h)
    · rintro (h | h | h)
      · exact Or.inl h
      · rw [h]; exact Or.inl hc
      · exact Or.inr h
  · have hb : pm.contains path = false := by
      cases hb : pm.contains path
      · rfl
      · exact absurd (List.mem_of_elem_eq_true hb) hc
    rw [if_neg (fun hcontra => hc (List.mem_of_elem_eq_true hcontra)), List.mem_cons, List.mem_cons]
    constructor
    · rintro ((h | h) | h)
      · exact Or.inr (Or.inl h)
      · exact Or.inl h
      · exact Or.inr (Or.inr h)
    · rintro (h | h | h)
      · exact Or.inl (Or.inr h)
      · exact Or.inl (Or.inl h)
      · exact Or.inr h

theorem unzipLoop_flags (target : String) :
    ∀ (entries : List ZipEntry) (pm : List String) (fs : FS)
      (i : Nat) (h : i < (unzipLoop target entries pm fs).2.2.length),
      ((unzipLoop target entries pm fs).2.2.get ⟨i, h⟩).2
        = decide (((unzipLoop target entries pm fs).2.2.get ⟨i, h⟩).1 ∈ pm
            ∨ ((unzipLoop target entries pm fs).2.2.get ⟨i, h⟩).1
                ∈ ((unzipLoop target entries pm fs).2.2.take i).map (fun q => q.1)) := by
  intro entries
  induction entries with
  | nil =>
    intro pm fs i h
    simp [unzipLoop] at h
  | cons e rest ih =>
    intro pm fs i h
    cases i with
    | zero =>
      simp only [unzipLoop, List.get, List.take, List.map_nil, List.not_mem_nil, or_false]
      exact contains_eq_decide_mem pm (joinPath target e.name)
    | succ i =>
      simp only [unzipLoop, List.get, List.take_succ_cons, List.map_cons]
      rw [ih]
      rw [decide_eq_decide]
      exact mem_register_iff _ _ _ _

theorem createDirectory_snd_none (fs : FS) (p : String) :
    (createDirectory fs p).2 = none := by
  unfold createDirectory
  split <;> rfl

theorem writeEntry_fresh (fs2 : FS) (e : ZipEntry) (path : String)
    (hdir : e.isDir = false) (hip : joinSegs (splitOnSep path).dropLast ≠ "") :
    readFileFromZipAndWriteToFilesystem fs2 e path false
      = (putFile (createDirectory fs2 (joinSegs (splitOnSep path).dropLast)).1 path e.content,
         none) := by
  have h2 := createDirectory_snd_none fs2 (joinSegs (splitOnSep path).dropLast)
  rcases hcd : createDirectory fs2 (joinSegs (splitOnSep path).dropLast) with ⟨fs1, oe⟩
  rw [hcd] at h2
  simp only at h2
  subst h2
  simp [readFileFromZipAndWriteToFilesystem, hip, hdir, hcd]

theorem writeEntry_merge_ok (fs2 : FS) (e : ZipEntry) (path : String) (m : JSON)
    (hdir : e.isDir = false) (hip : joinSegs (splitOnSep path).dropLast ≠ "")
    (hm : combineJSONFile (createDirectory fs2 (joinSegs (splitOnSep path).dropLast)).1
            e.content path = .ok m) :
    readFileFromZipAndWriteToFilesystem fs2 e path true
      = (putFile (createDirectory fs2 (joinSegs (splitOnSep path).dropLast)).1 path (.json m),
         none) := by
  have h2 := createDirectory_snd_none fs2 (joinSegs (splitOnSep path).dropLast)
  rcases hcd : createDirectory fs2 (joinSegs (splitOnSep path).dropLast) with ⟨fs1, oe⟩
  rw [hcd] at h2
  simp only at h2
  subst h2
  rw [hcd] at hm
  simp only at hm
  simp [readFileFromZipAndWriteToFilesystem, hip, hdir, hcd, hm]

theorem writeEntry_merge_err (fs2 : FS) (e : ZipEntry) (path : String) (er : Err)
    (hdir : e.isDir = false) (hip : joinSegs (splitOnSep path).dropLast ≠ "")
    (hm : combineJSONFile (createDirectory fs2 (joinSegs (splitOnSep path).dropLast)).1
            e.content path = .error er) :
    readFileFromZipAndWriteToFilesystem fs2 e path true
      = ((createDirectory fs2 (joinSegs (splitOnSep path).dropLast)).1, some er) := by
  have h2 := createDirectory_snd_none fs2 (joinSegs (splitOnSep path).dropLast)
  rcases hcd : createDirectory fs2 (joinSegs (splitOnSep path).dropLast) with ⟨fs1, oe⟩
  rw [hcd] at h2
  simp only at h2
  subst h2
  rw [hcd] at hm
  simp only at hm
  simp [readFileFromZipAndWriteToFilesystem, hip, hdir, hcd, hm]

/-! Theorems for the claims. -/

/-- C5: during one run each destination path enters the registry exactly
once, on first sight of an entry resolving to it and before its write —
the final registry is duplicate-free and holds exactly the initial paths
plus every entry's resolved destination; the alreadyWritten flag passed
down for the i-th entry is precisely whether its path was in the registry
at that moment (initially present, or resolved by an earlier entry); and
that flag alone decides merge-with-existing versus fresh write for any
file entry that is actually written. -/
theorem c5_registry_single_entry_decides_merge (target : String) (entries : List ZipEntry)
    (pm : List String) (fs : FS) (hnd : pm.Nodup) :
    ((unzipLoop target entries pm fs).1.Nodup
      ∧ (∀ p, p ∈ (unzipLoop target entries pm fs).1
            ↔ p ∈ pm ∨ p ∈ entries.map (fun e => joinPath target e.name))
      ∧ ((unzipLoop target entries pm fs).2.2.map (fun q => q.1))
          = entries.map (fun e => joinPath target e.name))
    ∧ (∀ i (h : i < (unzipLoop target entries pm fs).2.2.length),
        ((unzipLoop target entries pm fs).2.2.get ⟨i, h⟩).2
          = decide (((unzipLoop target entries pm fs).2.2.get ⟨i, h⟩).1 ∈ pm
              ∨ ((unzipLoop target entries pm fs).2.2.get ⟨i, h⟩).1
                  ∈ ((unzipLoop target entries pm fs).2.2.take i).map (fun q => q.1)))
    ∧ (∀ (fs2 : FS) (e : ZipEntry) (path : String) (m : JSON) (er : Err),
        e.isDir = false → joinSegs (splitOnSep path).dropLast ≠ "" →
        (readFileFromZipAndWriteToFilesystem fs2 e path false
           = (putFile (createDirectory fs2 (joinSegs (splitOnSep path).dropLast)).1 path
                e.content, none))
        ∧ (combineJSONFile (createDirectory fs2 (joinSegs (splitOnSep path).dropLast)).1
              e.content path = .ok m →
            readFileFromZipAndWriteToFilesystem fs2 e path true
              = (putFile (createDirectory fs2 (joinSegs (splitOnSep path).dropLast)).1 path
                   (.json m), none))
        ∧ (combineJSONFile (createDirectory fs2 (joinSegs (splitOnSep path).dropLast)).1
              e.content path = .error er →
            readFileFromZipAndWriteToFilesystem fs2 e path true
              = ((createDirectory fs2 (joinSegs (splitOnSep path).dropLast)).1, some er))) := by
  refine ⟨⟨unzipLoop_nodup target entries pm fs hnd,
           fun p => unzipLoop_mem target entries pm fs p,
           unzipLoop_trace_paths target entries pm fs⟩,
          fun i h => unzipLoop_flags target entries pm fs i h,
          fun fs2 e path m er hdir hip =>
            ⟨writeEntry_fresh fs2 e path hdir hip,
             fun hm => writeEntry_merge_ok fs2 e path m hdir hip hm,
             fun hm => writeEntry_merge_err fs2 e path er hdir hip hm⟩⟩

/-- Witness for C5 at a concrete two-archive-like entry list in which the
same path occurs twice: the final registry is duplicate-free. -/
theorem c5_registry_single_entry_decides_merge_witness :
    ([] : List String).Nodup
    ∧ (unzipLoop "" [⟨"pages/a.json", false, .raw "x"⟩, ⟨"pages/a.json", false, .raw "y"⟩]
        [] emptyFS).1.Nodup :=
  ⟨List.nodup_nil,
   (c5_registry_single_entry_decides_merge ""
      [⟨"pages/a.json", false, .raw "x"⟩, ⟨"pages/a.json", false, .raw "y"⟩]
      [] emptyFS List.nodup_nil).1.1⟩


/-- C1 (code bug exhibited): an entry of the second archive whose merge
fails (the existing file at its path is not valid JSON) does not abort
extraction: unzip discards the per-entry error (src/cmd/retrieve.go line
177 ignores the return value), so the run returns no error and the later
entry pages/b.json of the same archive is still written — while the
per-entry call for the failing entry, evaluated at the exact state it sees,
does return a merge error. -/
theorem c1_entry_error_discarded :
    (readFileFromZipAndWriteToFilesystem
        (writeResultsToDisk [] "" [.ok [⟨"pages/a.txt", false, .raw "hello"⟩]] emptyFS).1.fs
        ⟨"pages/a.txt", false, .json (.obj [("x", .num 1)])⟩ "pages/a.txt" true).2
      = some Err.mergeError
    ∧ (writeResultsToDisk [] ""
        [.ok [⟨"pages/a.txt", false, .raw "hello"⟩],
         .ok [⟨"pages/a.txt", false, .json (.obj [("x", .num 1)])⟩,
              ⟨"pages/b.json", false, .json (.obj [("y", .num 2)])⟩]] emptyFS).2 = none
    ∧ getFile (writeResultsToDisk [] ""
        [.ok [⟨"pages/a.txt", false, .raw "hello"⟩],
         .ok [⟨"pages/a.txt", false, .json (.obj [("x", .num 1)])⟩,
              ⟨"pages/b.json", false, .json (.obj [("y", .num 2)])⟩]] emptyFS).1.fs
        "pages/b.json" = some (.json (.obj [("y", .num 2)])) :=
  ⟨rfl, rfl, rfl⟩

/-- C2: two archives of one run each contain pages/Foo.xml.json; the second
is merged onto the first through the shared per-run path registry, and the
resulting file holds the merge-patch result, serialized tab-indented with
the name key first and the remaining keys ascending. -/
theorem c2_cross_archive_merge :
    (writeResultsToDisk [] ""
        [.ok [⟨"pages/Foo.xml.json", false, .json (.obj [("name", .str "Foo"), ("id", .num 1)])⟩,],
         .ok [⟨"pages/Foo.xml.json", false, .json (.obj [("id", .num 2), ("extra", .bool true)])⟩]]
        emptyFS).2 = none
    ∧ getFile (writeResultsToDisk [] ""
        [.ok [⟨"pages/Foo.xml.json", false, .json (.obj [("name", .str "Foo"), ("id", .num 1)])⟩,],
         .ok [⟨"pages/Foo.xml.json", false, .json (.obj [("id", .num 2), ("extra", .bool true)])⟩]]
        emptyFS).1.fs "pages/Foo.xml.json"
      = some (.json (mergePatch (.obj [("name", .str "Foo"), ("id", .num 1)])
                                (.obj [("id", .num 2), ("extra", .bool true)])))
    ∧ mergePatch (.obj [("name", .str "Foo"), ("id", .num 1)])
                 (.obj [("id", .num 2), ("extra", .bool true)])
      = .obj [("name", .str "Foo"), ("id", .num 2), ("extra", .bool true)]
    ∧ serializeJSON (.obj [("name", .str "Foo"), ("id", .num 2), ("extra", .bool true)])
      = "\x7b\n\t\"name\": \"Foo\",\n\t\"extra\": true,\n\t\"id\": 2\n\x7d" :=
  ⟨rfl, rfl, rfl, rfl⟩

/-- C6: an archive entry whose destination path has no intermediate path
segment (it resolves to the target root itself) is skipped: the filesystem
is returned unchanged and no file is created. -/
theorem c6_root_entry_skipped (fs : FS) (e : ZipEntry) (target : String) (already : Bool)
    (h : (splitOnSep (joinPath target e.name)).length = 1) :
    readFileFromZipAndWriteToFilesystem fs e (joinPath target e.name) already = (fs, none) := by
  have hip : joinSegs (splitOnSep (joinPath target e.name)).dropLast = "" :=
    joinSegs_dropLast_of_length_one _ h
  simp [readFileFromZipAndWriteToFilesystem, hip]

/-- Witness for C6 at the spec's example: the only entry root.txt at the
archive top level of an archive extracted into an empty target. -/
theorem c6_root_entry_skipped_witness :
    (splitOnSep (joinPath "" "root.txt")).length = 1
    ∧ readFileFromZipAndWriteToFilesystem emptyFS ⟨"root.txt", false, .raw "x"⟩
        (joinPath "" "root.txt") false = (emptyFS, none) :=
  ⟨rfl, c6_root_entry_skipped emptyFS ⟨"root.txt", false, .raw "x"⟩ "" false rfl⟩

/-- C7 counterexample: when the walk itself fails, Archive returns the error
without ever closing the zip writer, so it does not finalize the archive in
every case — contrary to the claim. -/
theorem c7_counterexample :
    (Archive [WalkItem.walkFailure]).err = some Err.walkError
    ∧ (Archive [WalkItem.walkFailure]).closed = false :=
  ⟨rfl, rfl⟩

/-- C7 amended: Archive fails with an error on any read/write failure
during the walk, and it finalizes (closes) the archive writer exactly when
the walk completes without error; when walking fails partway the error is
returned without closing the writer. -/
theorem c7_close_only_on_success (items : List WalkItem) :
    ((Archive items).closed = true ↔ (Archive items).err = none)
    ∧ (∀ pre p rest, cleanItems pre = true →
        (Archive (pre ++ WalkItem.fileFailure p :: rest)).err = some Err.ioError) := by
  constructor
  · unfold Archive
    rcases h : archiveWalk items [] with ⟨es, oe⟩
    cases oe <;> simp
  · intro pre p rest hc
    have h2 := archiveWalk_clean_then_failure p pre hc rest []
    unfold Archive
    rcases h : archiveWalk (pre ++ WalkItem.fileFailure p :: rest) [] with ⟨es, oe⟩
    rw [h] at h2
    simp only at h2
    rw [h2]

/-- Witness for C7's amended theorem: a clean prefix followed by a file
failure yields the error. -/
theorem c7_close_only_on_success_witness :
    cleanItems [WalkItem.dir "d"] = true
    ∧ (Archive ([WalkItem.dir "d"] ++ WalkItem.fileFailure "f" :: [])).err = some Err.ioError :=
  ⟨rfl, (c7_close_only_on_success ([WalkItem.dir "d"] ++ WalkItem.fileFailure "f" :: [])).2
          [WalkItem.dir "d"] "f" [] rfl⟩

/-- C8 counterexample: when io.Copy into the just-created temp file fails,
createTemporaryZipFile returns the error without the file name, so no
removal is ever scheduled and the temp file survives the run — deletion is
not guaranteed on every exit path, contrary to the claim. -/
theorem c8_counterexample :
    (writeResultsToDisk [] "" [Payload.copyFails] emptyFS).2 = some Err.copyFailed
    ∧ (writeResultsToDisk [] "" [Payload.copyFails] emptyFS).1.tempsOnDisk = [0] :=
  ⟨rfl, rfl⟩

/-- C8 amended: every temporary file whose spooling completes (so that its
name is returned to the orchestrator) is deleted by the time
writeResultsToDisk returns, on the success path and on every failure path —
any temp file still on disk after the run belongs to a payload whose copy
into the just-created temp file failed, the one leak. -/
theorem c8_spooled_temps_deleted (mdirs : List String) (target : String)
    (payloads : List Payload) (fs : FS) :
    ∀ x ∈ (writeResultsToDisk mdirs target payloads fs).1.tempsOnDisk,
      payloads[x]? = some Payload.copyFails := by
  intro x hx
  have hx2 : x ∈ ((processPayloads target payloads 0
      ⟨clearMetadataDirs mdirs target fs, [], [], []⟩).1.tempsOnDisk.filter
        (fun i => !((processPayloads target payloads 0
          ⟨clearMetadataDirs mdirs target fs, [], [], []⟩).1.deferredRemoves.contains i))) := hx
  rw [List.mem_filter] at hx2
  rcases hx2 with ⟨hmem, hnc⟩
  rcases processPayloads_temps_covered target payloads 0 _ (by intro y hy; simp at hy) x hmem
    with h | ⟨j, hj, hget⟩
  · exact absurd h (not_mem_of_not_contains hnc)
  · rw [hj]
    simpa using hget

/-- Witness for C8's amended theorem at a run where the first archive
spools and extracts fine and the second one's copy fails: the surviving
temp file is the copy-failed one (temp 0, successfully spooled, was
deleted). -/
theorem c8_spooled_temps_deleted_witness :
    1 ∈ (writeResultsToDisk [] "" [Payload.ok [], Payload.copyFails] emptyFS).1.tempsOnDisk
    ∧ ([Payload.ok [], Payload.copyFails])[1]? = some Payload.copyFails :=
  ⟨by decide,
   c8_spooled_temps_deleted [] "" [Payload.ok [], Payload.copyFails] emptyFS 1 (by decide)⟩

/-- C10: the default directory creator is a no-op returning nil whenever
something already exists at the path — a directory or a regular file — and
it attempts MkdirAll exactly when stat fails. -/
theorem c10_createDirectory_stat_guard (fs : FS) (p : String) :
    (fs.dirs.contains p = true → createDirectory fs p = (fs, none))
    ∧ (fs.files.any (fun f => f.1 == p) = true → createDirectory fs p = (fs, none))
    ∧ (statOk fs p = false → createDirectory fs p = (mkdirAll fs p, none)) := by
  refine ⟨?_, ?_, ?_⟩ <;> intro h
  · have hs : statOk fs p = true := by unfold statOk; rw [h]; simp
    simp [createDirectory, hs]
  · have hs : statOk fs p = true := by unfold statOk; rw [h]; simp
    simp [createDirectory, hs]
  · simp [createDirectory, h]

/-- Witness for C10: an existing directory, an existing regular file, and a
missing path. -/
theorem c10_createDirectory_stat_guard_witness :
    createDirectory ⟨[("f.txt", .raw "x")], ["d"]⟩ "d" = (⟨[("f.txt", .raw "x")], ["d"]⟩, none)
    ∧ createDirectory ⟨[("f.txt", .raw "x")], ["d"]⟩ "f.txt" = (⟨[("f.txt", .raw "x")], ["d"]⟩, none)
    ∧ createDirectory ⟨[("f.txt", .raw "x")], ["d"]⟩ "g"
        = (mkdirAll ⟨[("f.txt", .raw "x")], ["d"]⟩ "g", none) :=
  ⟨(c10_createDirectory_stat_guard ⟨[("f.txt", .raw "x")], ["d"]⟩ "d").1 rfl,
   (c10_createDirectory_stat_guard ⟨[("f.txt", .raw "x")], ["d"]⟩ "f.txt").2.1 rfl,
   (c10_createDirectory_stat_guard ⟨[("f.txt", .raw "x")], ["d"]⟩ "g").2.2 rfl⟩

end Skuid
namespace Skuid

/-- Does the value lack a top-level object shape. -/
def notObj : JSON → Bool
  | .obj _ => false
  | _ => true

theorem isNull_eq_false_of_ne {v : JSON} (h : v ≠ .null) : isNull v = false := by
  cases v <;> first | rfl | exact absurd rfl h

theorem mergePatch_of_notObj (t : JSON) {v : JSON} (h : notObj v = true) :
    mergePatch t v = v := by
  cases v <;> first | rfl | simp [notObj] at h

theorem find?_append_eq (p : (String × JSON) → Bool) :
    ∀ (l1 l2 : List (String × JSON)),
      (l1 ++ l2).find? p
        = match l1.find? p with
          | some x => some x
          | none => l2.find? p := by
  intro l1 l2
  induction l1 with
  | nil => simp
  | cons a t ih =>
    cases hp : p a with
    | true => simp only [List.cons_append, List.find?_cons, hp]
    | false =>
      simp only [List.cons_append, List.find?_cons, hp]
      exact ih

theorem find?_eq_none_of_keys (k : String) (l : List (String × JSON))
    (h : ∀ kv ∈ l, kv.1 ≠ k) : l.find? (fun kv => kv.1 == k) = none :=
  List.find?_eq_none.mpr (fun kv hm => by simp [h kv hm])

theorem key_ne_of_hasKey_false {pf : List (String × JSON)} {k : String}
    (h : hasKey pf k = false) {kv : String × JSON} (hm : kv ∈ pf) : kv.1 ≠ k := by
  intro he
  have ht : hasKey pf k = true := List.any_eq_true.mpr ⟨kv, hm, by simp [he]⟩
  simp [ht] at h

theorem hasKey_of_find?_some {pf : List (String × JSON)} {k : String} {kv : String × JSON}
    (h : pf.find? (fun kv => kv.1 == k) = some kv) : hasKey pf k = true := by
  have hp := List.find?_some h
  exact List.any_eq_true.mpr ⟨kv, List.mem_of_find?_eq_some h, hp⟩

theorem keep_find?_none (tf pf : List (String × JSON)) (k : String)
    (hk : hasKey pf k = true) :
    (tf.filter (fun kv => !(hasKey pf kv.1))).find? (fun kv => kv.1 == k) = none := by
  apply find?_eq_none_of_keys
  intro kv hm he
  have hp := List.of_mem_filter hm
  rw [he, hk] at hp
  simp at hp

theorem keep_find?_eq (pf : List (String × JSON)) (k : String) (hk : hasKey pf k = false) :
    ∀ (tf : List (String × JSON)),
      (tf.filter (fun kv => !(hasKey pf kv.1))).find? (fun kv => kv.1 == k)
        = tf.find? (fun kv => kv.1 == k) := by
  intro tf
  induction tf with
  | nil => rfl
  | cons kv t ih =>
    by_cases he : kv.1 = k
    · have hp : (!(hasKey pf kv.1)) = true := by rw [he, hk]; rfl
      rw [List.filter_cons, if_pos hp]
      have hb : (kv.1 == k) = true := by simp [he]
      simp only [List.find?_cons, hb]
    · have hb : (kv.1 == k) = false := by simp [he]
      cases hp : (!(hasKey pf kv.1)) with
      | true =>
        rw [List.filter_cons, if_pos hp]
        simp only [List.find?_cons, hb]
        exact ih
      | false =>
        rw [List.filter_cons, if_neg (by simp [hp])]
        simp only [List.find?_cons, hb]
        exact ih

theorem mergeInto_find?_none (k : String) :
    ∀ (pf tf : List (String × JSON)), (∀ kv ∈ pf, kv.1 ≠ k) →
      (mergeInto tf pf).find? (fun kv => kv.1 == k) = none := by
  intro pf
  induction pf with
  | nil => intro tf _; rfl
  | cons kv rest ih =>
    intro tf h
    rcases kv with ⟨k1, v1⟩
    have hne : k1 ≠ k := h (k1, v1) (by simp)
    have hb : (k1 == k) = false := by simp [hne]
    cases hn : isNull v1 with
    | true =>
      simp only [mergeInto, hn, if_true]
      exact ih tf (fun kv hm => h kv (by simp [hm]))
    | false =>
      simp only [mergeInto, hn, Bool.false_eq_true, if_false, List.find?_cons, hb]
      exact ih tf (fun kv hm => h kv (by simp [hm]))

theorem mergeInto_find?_some (k : String) :
    ∀ (pf tf : List (String × JSON)) (v : JSON),
      pf.find? (fun kv => kv.1 == k) = some (k, v) → isNull v = false →
      (mergeInto tf pf).find? (fun kv => kv.1 == k)
        = some (k, mergePatch (lookupD tf k) v) := by
  intro pf
  induction pf with
  | nil => intro tf v h _; simp at h
  | cons kv rest ih =>
    intro tf v h hnn
    rcases kv with ⟨k1, v1⟩
    by_cases he : k1 = k
    · have hb : (k1 == k) = true := by simp [he]
      simp only [List.find?_cons, hb] at h
      have h2 : (k1, v1) = (k, v) := Option.some.inj h
      have hv : v1 = v := congrArg Prod.snd h2
      subst hv
      subst he
      simp only [mergeInto, hnn, Bool.false_eq_true, if_false]
      simp only [List.find?_cons, hb]
    · have hb : (k1 == k) = false := by simp [he]
      simp only [List.find?_cons, hb] at h
      cases hn : isNull v1 with
      | true =>
        simp only [mergeInto, hn, if_true]
        exact ih tf v h hnn
      | false =>
        simp only [mergeInto, hn, Bool.false_eq_true, if_false, List.find?_cons, hb]
        exact ih tf v h hnn

theorem mergeInto_find?_none_of_null (k : String) :
    ∀ (pf tf : List (String × JSON)),
      pf.find? (fun kv => kv.1 == k) = some (k, .null) →
      distinctKeys (pf.map (fun kv => kv.1)) = true →
      (mergeInto tf pf).find? (fun kv => kv.1 == k) = none := by
  intro pf
  induction pf with
  | nil => intro tf h _; simp at h
  | cons kv rest ih =>
    intro tf h hd
    rcases kv with ⟨k1, v1⟩
    simp only [List.map_cons, distinctKeys, Bool.and_eq_true] at hd
    by_cases he : k1 = k
    · have hb : (k1 == k) = true := by simp [he]
      simp only [List.find?_cons, hb] at h
      have h2 : (k1, v1) = (k, JSON.null) := Option.some.inj h
      have hv : v1 = JSON.null := congrArg Prod.snd h2
      subst hv
      simp only [mergeInto, isNull, if_true]
      apply mergeInto_find?_none
      intro kv hm hk2
      have hc1 := hd.1
      have hmem : k1 ∈ rest.map (fun kv => kv.1) :=
        List.mem_map.mpr ⟨kv, hm, hk2.trans he.symm⟩
      have htrue : (rest.map (fun kv => kv.1)).contains k1 = true :=
        List.elem_eq_true_of_mem hmem
      rw [htrue] at hc1
      simp at hc1
    · have hb : (k1 == k) = false := by simp [he]
      simp only [List.find?_cons, hb] at h
      cases hn : isNull v1 with
      | true =>
        simp only [mergeInto, hn, if_true]
        exact ih tf h hd.2
      | false =>
        simp only [mergeInto, hn, Bool.false_eq_true, if_false, List.find?_cons, hb]
        exact ih tf h hd.2


theorem getKey_obj (l : List (String × JSON)) (k : String) :
    getKey (JSON.obj l) k = (l.find? (fun kv => kv.1 == k)).map (fun kv => kv.2) := rfl

theorem mergePatch_obj_obj (af bf : List (String × JSON)) :
    mergePatch (JSON.obj af) (JSON.obj bf)
      = JSON.obj (af.filter (fun kv => !(hasKey bf kv.1)) ++ mergeInto af bf) := rfl

theorem mergePatch_getKey_null (af bf : List (String × JSON)) (k : String)
    (hB : wf (JSON.obj bf) = true)
    (h : getKey (JSON.obj bf) k = some JSON.null) :
    getKey (mergePatch (JSON.obj af) (JSON.obj bf)) k = none := by
  have hwB : distinctKeys (bf.map (fun kv => kv.1)) = true := by
    have hB2 : (distinctKeys (bf.map (fun kv => kv.1)) && wfFields bf) = true := hB
    rw [Bool.and_eq_true] at hB2
    exact hB2.1
  rw [getKey_obj] at h
  rcases Option.map_eq_some'.mp h with ⟨kv, hfind, hv⟩
  rcases kv with ⟨k1, v1⟩
  have hk1 : k1 = k := by simpa using List.find?_some hfind
  subst hk1
  simp only at hv
  subst hv
  have hhk : hasKey bf k1 = true := hasKey_of_find?_some hfind
  rw [mergePatch_obj_obj, getKey_obj, find?_append_eq,
    keep_find?_none af bf k1 hhk,
    mergeInto_find?_none_of_null k1 bf af hfind hwB]
  rfl

theorem mergePatch_getKey_overwrite (af bf : List (String × JSON)) (k : String) (v : JSON)
    (h : getKey (JSON.obj bf) k = some v) (hne : v ≠ JSON.null) :
    getKey (mergePatch (JSON.obj af) (JSON.obj bf)) k
      = some (mergePatch (lookupD af k) v) := by
  rw [getKey_obj] at h
  rcases Option.map_eq_some'.mp h with ⟨kv, hfind, hv⟩
  rcases kv with ⟨k1, v1⟩
  have hk1 : k1 = k := by simpa using List.find?_some hfind
  subst hk1
  simp only at hv
  subst hv
  have hhk : hasKey bf k1 = true := hasKey_of_find?_some hfind
  rw [mergePatch_obj_obj, getKey_obj, find?_append_eq,
    keep_find?_none af bf k1 hhk,
    mergeInto_find?_some k1 bf af v1 hfind (isNull_eq_false_of_ne hne)]
  rfl

theorem mergePatch_getKey_untouched (af bf : List (String × JSON)) (k : String)
    (h : getKey (JSON.obj bf) k = none) :
    getKey (mergePatch (JSON.obj af) (JSON.obj bf)) k = getKey (JSON.obj af) k := by
  rw [getKey_obj] at h
  have hfnone : bf.find? (fun kv => kv.1 == k) = none := Option.map_eq_none'.mp h
  have hhk : hasKey bf k = false := by
    cases hq : hasKey bf k
    · rfl
    · rcases List.any_eq_true.mp hq with ⟨kv, hm, hp⟩
      exact absurd hp (List.find?_eq_none.mp hfnone kv hm)
  rw [mergePatch_obj_obj, getKey_obj, find?_append_eq, keep_find?_eq bf k hhk af]
  cases haf : af.find? (fun kv => kv.1 == k) with
  | some kv => rw [getKey_obj, haf]
  | none =>
    rw [mergeInto_find?_none k bf af (fun kv hm => key_ne_of_hasKey_false hhk hm),
      getKey_obj, haf]

/-- C3: the modelled merge implements JSON Merge Patch on the fields of two
valid top-level objects: an incoming null deletes the field; any other
incoming field overwrites the target's binding as the recursive merge of
the two; in particular two object values merge recursively rather than
being replaced, a non-object incoming value replaces the target value
outright, and fields not mentioned by the patch are preserved. -/
theorem c3_json_merge_patch (af bf : List (String × JSON))
    (hA : wf (JSON.obj af) = true) (hB : wf (JSON.obj bf) = true) :
    (∀ k, getKey (JSON.obj bf) k = some JSON.null →
        getKey (mergePatch (JSON.obj af) (JSON.obj bf)) k = none)
    ∧ (∀ k v, getKey (JSON.obj bf) k = some v → v ≠ JSON.null →
        getKey (mergePatch (JSON.obj af) (JSON.obj bf)) k
          = some (mergePatch (lookupD af k) v))
    ∧ (∀ k ao bo, getKey (JSON.obj af) k = some (JSON.obj ao) →
        getKey (JSON.obj bf) k = some (JSON.obj bo) →
        getKey (mergePatch (JSON.obj af) (JSON.obj bf)) k
          = some (mergePatch (JSON.obj ao) (JSON.obj bo)))
    ∧ (∀ k v, getKey (JSON.obj bf) k = some v → v ≠ JSON.null → notObj v = true →
        getKey (mergePatch (JSON.obj af) (JSON.obj bf)) k = some v)
    ∧ (∀ k, getKey (JSON.obj bf) k = none →
        getKey (mergePatch (JSON.obj af) (JSON.obj bf)) k = getKey (JSON.obj af) k) := by
  refine ⟨fun k h => mergePatch_getKey_null af bf k hB h,
          fun k v h hne => mergePatch_getKey_overwrite af bf k v h hne,
          fun k ao bo hA2 hB2 => ?_,
          fun k v h hne hno => ?_,
          fun k h => mergePatch_getKey_untouched af bf k h⟩
  · have hl : lookupD af k = JSON.obj ao := by
      have hA2m : (af.find? (fun kv => kv.1 == k)).map (fun kv => kv.2)
          = some (JSON.obj ao) := hA2
      unfold lookupD
      rw [hA2m]
      rfl
    rw [mergePatch_getKey_overwrite af bf k (JSON.obj bo) hB2 (by intro hx; cases hx), hl]
  · rw [mergePatch_getKey_overwrite af bf k v h hne, mergePatch_of_notObj _ hno]

/-- Witness for C3 at the spec's own examples. -/
theorem c3_json_merge_patch_witness :
    wf (JSON.obj [("a", .num 1), ("b", .num 2)]) = true
    ∧ wf (JSON.obj [("a", .null)]) = true
    ∧ getKey (mergePatch (JSON.obj [("a", .num 1), ("b", .num 2)])
        (JSON.obj [("a", .null)])) "a" = none :=
  ⟨rfl, rfl,
   (c3_json_merge_patch [("a", .num 1), ("b", .num 2)] [("a", .null)] rfl rfl).1 "a" rfl⟩


theorem filter_idem (q : (String × JSON) → Bool) (l : List (String × JSON)) :
    (l.filter q).filter q = l.filter q := by
  induction l with
  | nil => rfl
  | cons a t ih =>
    cases hq : q a with
    | true => simp [List.filter_cons, hq, ih]
    | false => simp [List.filter_cons, hq, ih]

theorem mergeInto_keys_hasKey :
    ∀ (pf tf : List (String × JSON)) (kv : String × JSON),
      kv ∈ mergeInto tf pf → hasKey pf kv.1 = true := by
  intro pf
  induction pf with
  | nil => intro tf kv hm; simp [mergeInto] at hm
  | cons hd rest ih =>
    intro tf kv hm
    rcases hd with ⟨k, v⟩
    cases hn : isNull v with
    | true =>
      rw [show mergeInto tf ((k, v) :: rest) = mergeInto tf rest by
        simp only [mergeInto, hn, if_true]] at hm
      have h2 : rest.any (fun kv2 => kv2.1 == kv.1) = true := ih tf kv hm
      unfold hasKey
      rw [List.any_cons, h2, Bool.or_true]
    | false =>
      rw [show mergeInto tf ((k, v) :: rest)
            = (k, mergePatch (lookupD tf k) v) :: mergeInto tf rest by
        simp only [mergeInto, hn, Bool.false_eq_true, if_false]] at hm
      rcases List.mem_cons.mp hm with h | h
      · unfold hasKey
        rw [List.any_cons]
        rw [h]
        simp
      · have h2 : rest.any (fun kv2 => kv2.1 == kv.1) = true := ih tf kv h
        unfold hasKey
        rw [List.any_cons, h2, Bool.or_true]

theorem proc_filter_nil (tf pf : List (String × JSON)) :
    (mergeInto tf pf).filter (fun kv => !(hasKey pf kv.1)) = [] := by
  rw [List.filter_eq_nil_iff]
  intro kv hm
  simp [mergeInto_keys_hasKey pf tf kv hm]

theorem lookupD_cons_self (k : String) (X : JSON) (L : List (String × JSON)) :
    lookupD ((k, X) :: L) k = X := by
  unfold lookupD
  simp [List.find?_cons]

theorem lookupD_cons_ne (k k' : String) (X : JSON) (L : List (String × JSON)) (h : k ≠ k') :
    lookupD ((k, X) :: L) k' = lookupD L k' := by
  unfold lookupD
  simp [List.find?_cons, h]

theorem lookupD_append_keep (tf pf L : List (String × JSON)) (k : String)
    (hk : hasKey pf k = true) :
    lookupD ((tf.filter (fun kv => !(hasKey pf kv.1))) ++ L) k = lookupD L k := by
  unfold lookupD
  rw [find?_append_eq, keep_find?_none tf pf k hk]

theorem mem_keys_of_hasKey {pf : List (String × JSON)} {k : String}
    (h : hasKey pf k = true) : k ∈ pf.map (fun kv => kv.1) := by
  rcases List.any_eq_true.mp h with ⟨kv, hm, hp⟩
  have he : kv.1 = k := by simpa using hp
  exact List.mem_map.mpr ⟨kv, hm, he⟩

theorem isNull_true_eq {v : JSON} (h : isNull v = true) : v = .null := by
  cases v <;> first | rfl | simp [isNull] at h

theorem mergePatch_obj (t : JSON) (pf : List (String × JSON)) :
    mergePatch t (JSON.obj pf)
      = JSON.obj ((objFields t).filter (fun kv => !(hasKey pf kv.1))
          ++ mergeInto (objFields t) pf) := rfl

mutual

theorem mergePatch_idem : (p t : JSON) → wf p = true →
    mergePatch (mergePatch t p) p = mergePatch t p
  | .null, t, hw => rfl
  | .bool b, t, hw => rfl
  | .num n, t, hw => rfl
  | .str s, t, hw => rfl
  | .arr xs, t, hw => rfl
  | .obj pf, t, hw => by
    have hw2 : (distinctKeys (pf.map (fun kv => kv.1)) && wfFields pf) = true := hw
    rw [Bool.and_eq_true] at hw2
    rw [mergePatch_obj t pf, mergePatch_obj_obj]
    have hfilter :
        (((objFields t).filter (fun kv => !(hasKey pf kv.1))
            ++ mergeInto (objFields t) pf).filter (fun kv => !(hasKey pf kv.1)))
          = (objFields t).filter (fun kv => !(hasKey pf kv.1)) := by
      rw [List.filter_append, filter_idem, proc_filter_nil, List.append_nil]
    have hmi :
        mergeInto ((objFields t).filter (fun kv => !(hasKey pf kv.1))
            ++ mergeInto (objFields t) pf) pf
          = mergeInto (objFields t) pf := by
      apply mergeInto_agree pf _ (objFields t) hw2.2 hw2.1
      intro k hk
      exact lookupD_append_keep (objFields t) pf (mergeInto (objFields t) pf) k hk
    rw [hfilter, hmi]
termination_by p t h => sizeOf p

theorem mergeInto_agree : (pf S tf : List (String × JSON)) →
    wfFields pf = true → distinctKeys (pf.map (fun kv => kv.1)) = true →
    (∀ k, hasKey pf k = true → lookupD S k = lookupD (mergeInto tf pf) k) →
    mergeInto S pf = mergeInto tf pf
  | [], S, tf, _, _, _ => rfl
  | (k, v) :: rest, S, tf, hwf, hd, hlook => by
    have hwf2 : (wf v && wfFields rest) = true := hwf
    rw [Bool.and_eq_true] at hwf2
    have hd2 : ((!(rest.map (fun kv => kv.1)).contains k)
        && distinctKeys (rest.map (fun kv => kv.1))) = true := hd
    rw [Bool.and_eq_true] at hd2
    cases hn : isNull v with
    | true =>
      simp only [mergeInto, hn, if_true]
      apply mergeInto_agree rest S tf hwf2.2 hd2.2
      intro k' hk'
      have hany : rest.any (fun kv => kv.1 == k') = true := hk'
      have hkp : hasKey ((k, v) :: rest) k' = true := by
        unfold hasKey
        rw [List.any_cons]
        simp [hany]
      have hS := hlook k' hkp
      rw [hS]
      simp only [mergeInto, hn, if_true]
    | false =>
      simp only [mergeInto, hn, Bool.false_eq_true, if_false]
      have hk : hasKey ((k, v) :: rest) k = true := by
        unfold hasKey
        rw [List.any_cons]
        simp
      have hhead : mergePatch (lookupD S k) v = mergePatch (lookupD tf k) v := by
        rw [hlook k hk]
        have hl : lookupD (mergeInto tf ((k, v) :: rest)) k
            = mergePatch (lookupD tf k) v := by
          simp only [mergeInto, hn, Bool.false_eq_true, if_false]
          exact lookupD_cons_self k _ _
        rw [hl]
        exact mergePatch_idem v (lookupD tf k) hwf2.1
      rw [hhead]
      have htail : mergeInto S rest = mergeInto tf rest := by
        apply mergeInto_agree rest S tf hwf2.2 hd2.2
        intro k' hk'
        have hany : rest.any (fun kv => kv.1 == k') = true := hk'
        have hkp : hasKey ((k, v) :: rest) k' = true := by
          unfold hasKey
          rw [List.any_cons]
          simp [hany]
        have hne : k ≠ k' := by
          intro he
          have hmem : k' ∈ rest.map (fun kv => kv.1) := mem_keys_of_hasKey hk'
          rw [← he] at hmem
          have hcont : (rest.map (fun kv => kv.1)).contains k = true :=
            List.elem_eq_true_of_mem hmem
          have hd1 := hd2.1
          rw [hcont] at hd1
          simp at hd1
        have hS := hlook k' hkp
        rw [hS]
        simp only [mergeInto, hn, Bool.false_eq_true, if_false]
        exact lookupD_cons_ne k k' _ _ hne
      rw [htail]
termination_by pf S tf h1 h2 h3 => sizeOf pf

end

/-- C9: re-applying the same patch is a no-op — for valid top-level JSON
objects A and B (the inputs for which the modelled merge succeeds),
merge(merge(A,B),B) = merge(A,B). -/
theorem c9_merge_idempotent (af bf : List (String × JSON))
    (hA : wf (JSON.obj af) = true) (hB : wf (JSON.obj bf) = true) :
    mergePatch (mergePatch (JSON.obj af) (JSON.obj bf)) (JSON.obj bf)
      = mergePatch (JSON.obj af) (JSON.obj bf) :=
  mergePatch_idem (JSON.obj bf) (JSON.obj af) hB

/-- Witness for C9 at a nested example with an overwrite, a recursive merge
and a null deletion. -/
theorem c9_merge_idempotent_witness :
    wf (JSON.obj [("a", .obj [("x", .num 1), ("y", .num 2)]), ("b", .num 2)]) = true
    ∧ wf (JSON.obj [("a", .obj [("y", .num 3)]), ("b", .null)]) = true
    ∧ mergePatch (mergePatch (JSON.obj [("a", .obj [("x", .num 1), ("y", .num 2)]), ("b", .num 2)])
          (JSON.obj [("a", .obj [("y", .num 3)]), ("b", .null)]))
        (JSON.obj [("a", .obj [("y", .num 3)]), ("b", .null)])
      = mergePatch (JSON.obj [("a", .obj [("x", .num 1), ("y", .num 2)]), ("b", .num 2)])
          (JSON.obj [("a", .obj [("y", .num 3)]), ("b", .null)]) :=
  ⟨rfl, rfl,
   c9_merge_idempotent [("a", .obj [("x", .num 1), ("y", .num 2)]), ("b", .num 2)]
     [("a", .obj [("y", .num 3)]), ("b", .null)] rfl rfl⟩

end Skuid
namespace Skuid

theorem string_data_inj {a b : String} (h : a.data = b.data) : a = b := by
  cases a
  cases b
  exact congrArg String.mk h

theorem charsLt_cons_iff (x y : Char) (xs ys : List Char) :
    charsLt (x :: xs) (y :: ys) = true ↔ (x < y ∨ (x = y ∧ charsLt xs ys = true)) := by
  by_cases h1 : x < y
  · simp [charsLt, h1]
  · by_cases h2 : y < x
    · have hne : x ≠ y := (LT.lt.ne' h2)
      simp [charsLt, h1, h2, hne]
    · have heq : x = y := le_antisymm (not_lt.mp h2) (not_lt.mp h1)
      simp [charsLt, h1, h2, heq]

theorem charsLt_trans : ∀ (a b c : List Char),
    charsLt a b = true → charsLt b c = true → charsLt a c = true := by
  intro a
  induction a with
  | nil =>
    intro b c hab hbc
    cases b with
    | nil => simp [charsLt] at hab
    | cons y ys =>
      cases c with
      | nil => simp [charsLt] at hbc
      | cons z zs => rfl
  | cons x xs ih =>
    intro b c hab hbc
    cases b with
    | nil => simp [charsLt] at hab
    | cons y ys =>
      cases c with
      | nil => simp [charsLt] at hbc
      | cons z zs =>
        rw [charsLt_cons_iff] at hab hbc ⊢
        rcases hab with h | ⟨hxy, hab2⟩
        · rcases hbc with h2 | ⟨hyz, _⟩
          · exact Or.inl (lt_trans h h2)
          · exact Or.inl (hyz ▸ h)
        · rcases hbc with h2 | ⟨hyz, hbc2⟩
          · exact Or.inl (hxy ▸ h2)
          · exact Or.inr ⟨hxy.trans hyz, ih ys zs hab2 hbc2⟩

theorem charsLt_asymm : ∀ (a b : List Char),
    charsLt a b = true → charsLt b a = false := by
  intro a
  induction a with
  | nil =>
    intro b hab
    cases b with
    | nil => simp [charsLt] at hab
    | cons y ys => rfl
  | cons x xs ih =>
    intro b hab
    cases b with
    | nil => simp [charsLt] at hab
    | cons y ys =>
      rw [charsLt_cons_iff] at hab
      cases hq : charsLt (y :: ys) (x :: xs)
      · rfl
      · rw [charsLt_cons_iff] at hq
        rcases hab with h | ⟨hxy, hab2⟩
        · rcases hq with h2 | ⟨hyx, _⟩
          · exact absurd h2 (lt_asymm h)
          · exact absurd (hyx ▸ h) (lt_irrefl y)
        · rcases hq with h2 | ⟨hyx, hq2⟩
          · exact absurd (hxy ▸ h2) (lt_irrefl x)
          · rw [ih ys hab2] at hq2
            cases hq2
  
theorem charsLt_total_of_ne : ∀ (a b : List Char), a ≠ b →
    charsLt a b = true ∨ charsLt b a = true := by
  intro a
  induction a with
  | nil =>
    intro b hne
    cases b with
    | nil => exact absurd rfl hne
    | cons y ys => exact Or.inl rfl
  | cons x xs ih =>
    intro b hne
    cases b with
    | nil => exact Or.inr rfl
    | cons y ys =>
      by_cases hxy : x = y
      · subst hxy
        have hne2 : xs ≠ ys := fun h => hne (by rw [h])
        rcases ih ys hne2 with h | h
        · exact Or.inl ((charsLt_cons_iff _ _ _ _).mpr (Or.inr ⟨rfl, h⟩))
        · exact Or.inr ((charsLt_cons_iff _ _ _ _).mpr (Or.inr ⟨rfl, h⟩))
      · rcases lt_or_gt_of_ne hxy with h | h
        · exact Or.inl ((charsLt_cons_iff _ _ _ _).mpr (Or.inl h))
        · exact Or.inr ((charsLt_cons_iff _ _ _ _).mpr (Or.inl h))

theorem strLt_trans {a b c : String} (h1 : strLt a b = true) (h2 : strLt b c = true) :
    strLt a c = true :=
  charsLt_trans a.data b.data c.data h1 h2

theorem strLt_asymm {a b : String} (h : strLt a b = true) : strLt b a = false :=
  charsLt_asymm a.data b.data h

theorem strLt_total_of_ne {a b : String} (h : a ≠ b) :
    strLt a b = true ∨ strLt b a = true :=
  charsLt_total_of_ne a.data b.data (fun hd => h (string_data_inj hd))

theorem nameFirstSort_trans {a b c : String}
    (h1 : nameFirstSort a b = true) (h2 : nameFirstSort b c = true) :
    nameFirstSort a c = true := by
  unfold nameFirstSort at h1 h2 ⊢
  by_cases ha : a = "name"
  · simp [ha]
  · simp only [ha, if_false] at h1 ⊢
    by_cases hb : b = "name"
    · simp [hb] at h1
    · simp only [hb, if_false] at h1 h2
      by_cases hc : c = "name"
      · simp [hc] at h2
      · simp only [hc, if_false] at h2 ⊢
        exact strLt_trans h1 h2

theorem nameFirstSort_total_of_ne {a b : String} (h : a ≠ b) :
    nameFirstSort a b = true ∨ nameFirstSort b a = true := by
  unfold nameFirstSort
  by_cases ha : a = "name"
  · simp [ha]
  · by_cases hb : b = "name"
    · simp [hb]
    · simp only [ha, hb, if_false]
      exact strLt_total_of_ne h

theorem nameFirstSort_of_not_lt {a b : String} (hne : a ≠ b)
    (h : nameFirstSort a b = false) : nameFirstSort b a = true := by
  rcases nameFirstSort_total_of_ne hne with h2 | h2
  · rw [h2] at h
    cases h
  · exact h2

theorem nameFirstSort_to_name {a : String} (h : a ≠ "name") :
    nameFirstSort a "name" = false := by
  unfold nameFirstSort
  simp [h]

theorem nameFirstSort_nonname {a b : String} (ha : a ≠ "name") (hb : b ≠ "name")
    (h : nameFirstSort a b = true) : strLt a b = true := by
  unfold nameFirstSort at h
  simpa [ha, hb] using h


theorem insertKey_perm (kv : String × JSON) :
    ∀ (l : List (String × JSON)), (insertKey kv l).Perm (kv :: l) := by
  intro l
  induction l with
  | nil => exact List.Perm.refl _
  | cons x xs ih =>
    by_cases hc : nameFirstSort kv.1 x.1 = true
    · rw [insertKey, if_pos hc]
    · rw [insertKey, if_neg hc]
      exact (List.Perm.cons x ih).trans (List.Perm.swap kv x xs)

theorem sortFields_perm : ∀ (l : List (String × JSON)), (sortFields l).Perm l := by
  intro l
  induction l with
  | nil => exact List.Perm.refl _
  | cons x xs ih =>
    rw [sortFields]
    exact (insertKey_perm x (sortFields xs)).trans (List.Perm.cons x ih)

theorem insertKey_pairwise (kv : String × JSON) :
    ∀ (l : List (String × JSON)),
      (∀ x ∈ l, x.1 ≠ kv.1) →
      l.Pairwise (fun a b => nameFirstSort a.1 b.1 = true) →
      (insertKey kv l).Pairwise (fun a b => nameFirstSort a.1 b.1 = true) := by
  intro l
  induction l with
  | nil =>
    intro _ _
    exact List.pairwise_cons.mpr ⟨fun a ha => absurd ha (List.not_mem_nil a), List.Pairwise.nil⟩
  | cons x xs ih =>
    intro hne hp
    rcases List.pairwise_cons.mp hp with ⟨hx, hp2⟩
    by_cases hc : nameFirstSort kv.1 x.1 = true
    · rw [insertKey, if_pos hc]
      refine List.pairwise_cons.mpr ⟨?_, hp⟩
      intro a ha
      rcases List.mem_cons.mp ha with h | h
      · rw [h]
        exact hc
      · exact nameFirstSort_trans hc (hx a h)
    · rw [insertKey, if_neg hc]
      have hxkv : nameFirstSort x.1 kv.1 = true :=
        nameFirstSort_of_not_lt (fun he => hne x (by simp) he.symm)
          (by cases hq : nameFirstSort kv.1 x.1; rfl; exact absurd hq hc)
      refine List.pairwise_cons.mpr ⟨?_, ?_⟩
      · intro a ha
        rcases List.mem_cons.mp ((insertKey_perm kv xs).mem_iff.mp ha) with h | h
        · rw [h]
          exact hxkv
        · exact hx a h
      · exact ih (fun z hz => hne z (by simp [hz])) hp2

theorem sortFields_pairwise :
    ∀ (l : List (String × JSON)), (l.map (fun kv => kv.1)).Nodup →
      (sortFields l).Pairwise (fun a b => nameFirstSort a.1 b.1 = true) := by
  intro l
  induction l with
  | nil => exact fun _ => List.Pairwise.nil
  | cons x xs ih =>
    intro hnd
    rw [List.map_cons, List.nodup_cons] at hnd
    rw [sortFields]
    apply insertKey_pairwise
    · intro z hz he
      exact hnd.1 (he ▸ List.mem_map.mpr ⟨z, (sortFields_perm xs).mem_iff.mp hz, rfl⟩)
    · exact ih hnd.2

theorem strictAsc_of_pairwise :
    ∀ (ks : List String), ks.Pairwise (fun a b => strLt a b = true) → strictAsc ks = true := by
  intro ks
  induction ks with
  | nil => intro _; rfl
  | cons a t ih =>
    intro hp
    rcases List.pairwise_cons.mp hp with ⟨ha, hp2⟩
    cases t with
    | nil => rfl
    | cons b t2 =>
      rw [strictAsc, ha b (by simp), Bool.true_and]
      exact ih hp2

theorem filter_ne_of_not_mem :
    ∀ (t : List String), "name" ∉ t → t.filter (fun k => k != "name") = t := by
  intro t
  induction t with
  | nil => intro _; rfl
  | cons a t2 ih =>
    intro h
    have hne : a ≠ "name" := fun he => h (by simp [he])
    rw [List.filter_cons, if_pos (by simp [hne])]
    rw [ih (fun hm => h (by simp [hm]))]

theorem keys_nameFirstOrdered :
    ∀ (ks : List String), ks.Nodup →
      ks.Pairwise (fun a b => nameFirstSort a b = true) →
      nameFirstOrdered ks = true := by
  intro ks hnd hp
  have hrest : (ks.filter (fun k => k != "name")).Pairwise (fun a b => strLt a b = true) := by
    refine List.Pairwise.imp_of_mem ?_ (List.Pairwise.sublist (List.filter_sublist ks) hp)
    intro a b ha hb hr
    have hane : a ≠ "name" := by simpa using List.of_mem_filter ha
    have hbne : b ≠ "name" := by simpa using List.of_mem_filter hb
    exact nameFirstSort_nonname hane hbne hr
  have hasc : strictAsc (ks.filter (fun k => k != "name")) = true :=
    strictAsc_of_pairwise _ hrest
  unfold nameFirstOrdered
  simp only
  rw [hasc, Bool.true_and]
  by_cases hc : "name" ∈ ks
  · have hcb : ks.contains "name" = true := List.elem_eq_true_of_mem hc
    rw [hcb]
    simp only [if_true]
    cases ks with
    | nil => simp at hc
    | cons h t =>
      have hh : h = "name" := by
        by_contra hneq
        have hmem_t : "name" ∈ t := by
          rcases List.mem_cons.mp hc with he | hm
          · exact absurd he.symm hneq
          · exact hm
        have hrel := (List.pairwise_cons.mp hp).1 "name" hmem_t
        rw [nameFirstSort_to_name hneq] at hrel
        cases hrel
      subst hh
      have hnot : "name" ∉ t := (List.nodup_cons.mp hnd).1
      rw [List.filter_cons, if_neg (by simp)]
      rw [filter_ne_of_not_mem t hnot]
      exact beq_iff_eq.mpr rfl
  · have hcb : ks.contains "name" = false := by
      cases hq : ks.contains "name"
      · rfl
      · exact absurd (List.mem_of_elem_eq_true hq) hc
    rw [hcb]
    simp only [Bool.false_eq_true, if_false]
    rw [filter_ne_of_not_mem ks hc]
    exact beq_iff_eq.mpr rfl

theorem sortFields_keys_ordered (l : List (String × JSON))
    (hnd : (l.map (fun kv => kv.1)).Nodup) :
    nameFirstOrdered ((sortFields l).map (fun kv => kv.1)) = true := by
  apply keys_nameFirstOrdered
  · exact (((sortFields_perm l).map (fun kv => kv.1)).symm).nodup hnd
  · exact List.pairwise_map.mpr (sortFields_pairwise l hnd)


theorem distinctKeys_eq_true_iff : ∀ (l : List String), distinctKeys l = true ↔ l.Nodup := by
  intro l
  induction l with
  | nil => simp [distinctKeys]
  | cons k ks ih =>
    rw [distinctKeys, Bool.and_eq_true, List.nodup_cons, ih]
    constructor
    · rintro ⟨h1, h2⟩
      refine ⟨?_, h2⟩
      intro hm
      have hcb : ks.contains k = true := List.elem_eq_true_of_mem hm
      rw [hcb] at h1
      simp at h1
    · rintro ⟨h1, h2⟩
      refine ⟨?_, h2⟩
      have hc : ks.contains k = false := by
        cases hc2 : ks.contains k
        · rfl
        · exact absurd (List.mem_of_elem_eq_true hc2) h1
      rw [hc]
      rfl

theorem wfFields_iff_forall : ∀ (l : List (String × JSON)),
    wfFields l = true ↔ ∀ kv ∈ l, wf kv.2 = true := by
  intro l
  induction l with
  | nil => simp [wfFields]
  | cons kv t ih =>
    rcases kv with ⟨k, v⟩
    rw [wfFields, Bool.and_eq_true, ih]
    constructor
    · rintro ⟨h1, h2⟩ z hz
      rcases List.mem_cons.mp hz with he | hm
      · rw [he]
        exact h1
      · exact h2 z hm
    · intro h
      exact ⟨h (k, v) (by simp), fun z hz => h z (by simp [hz])⟩

theorem wf_lookupD (tf : List (String × JSON)) (k : String)
    (h : wfFields tf = true) : wf (lookupD tf k) = true := by
  unfold lookupD
  cases hf : tf.find? (fun kv => kv.1 == k) with
  | none => rfl
  | some kv =>
    have hm := List.mem_of_find?_eq_some hf
    exact (wfFields_iff_forall tf).mp h kv hm

theorem mergeInto_keys_sublist : ∀ (pf tf : List (String × JSON)),
    ((mergeInto tf pf).map (fun kv => kv.1)).Sublist (pf.map (fun kv => kv.1)) := by
  intro pf
  induction pf with
  | nil => intro tf; exact List.Sublist.refl _
  | cons kv rest ih =>
    intro tf
    rcases kv with ⟨k, v⟩
    cases hn : isNull v with
    | true =>
      simp only [mergeInto, hn, if_true, List.map_cons]
      exact (ih tf).trans (List.sublist_cons_self _ _)
    | false =>
      simp only [mergeInto, hn, Bool.false_eq_true, if_false, List.map_cons]
      exact List.Sublist.cons₂ _ (ih tf)

theorem wf_objFields (t : JSON) (h : wf t = true) :
    distinctKeys ((objFields t).map (fun kv => kv.1)) = true ∧ wfFields (objFields t) = true := by
  cases t with
  | obj fs =>
    have h2 : (distinctKeys (fs.map (fun kv => kv.1)) && wfFields fs) = true := h
    rw [Bool.and_eq_true] at h2
    exact h2
  | null => exact ⟨rfl, rfl⟩
  | bool b => exact ⟨rfl, rfl⟩
  | num n => exact ⟨rfl, rfl⟩
  | str s => exact ⟨rfl, rfl⟩
  | arr xs => exact ⟨rfl, rfl⟩

mutual

theorem wf_mergePatch : (p t : JSON) → wf t = true → wf p = true →
    wf (mergePatch t p) = true
  | .null, _, _, hp => hp
  | .bool b, _, _, hp => hp
  | .num n, _, _, hp => hp
  | .str s, _, _, hp => hp
  | .arr xs, _, _, hp => hp
  | .obj pf, t, ht, hp => by
    have hp2 : (distinctKeys (pf.map (fun kv => kv.1)) && wfFields pf) = true := hp
    rw [Bool.and_eq_true] at hp2
    rcases wf_objFields t ht with ⟨htd, htf⟩
    rw [mergePatch_obj t pf]
    show (distinctKeys
        ((((objFields t).filter (fun kv => !(hasKey pf kv.1))
            ++ mergeInto (objFields t) pf).map (fun kv => kv.1)))
      && wfFields ((objFields t).filter (fun kv => !(hasKey pf kv.1))
            ++ mergeInto (objFields t) pf)) = true
    rw [Bool.and_eq_true]
    constructor
    · rw [distinctKeys_eq_true_iff, List.map_append]
      apply List.Nodup.append
      · exact List.Nodup.sublist
          (List.Sublist.map (fun kv => kv.1) (List.filter_sublist (objFields t)))
          ((distinctKeys_eq_true_iff _).mp htd)
      · exact List.Nodup.sublist (mergeInto_keys_sublist pf (objFields t))
          ((distinctKeys_eq_true_iff _).mp hp2.1)
      · intro x hx1 hx2
        rcases List.mem_map.mp hx1 with ⟨kv, hkvm, hkve⟩
        rcases List.mem_map.mp hx2 with ⟨kw, hkwm, hkwe⟩
        have hfk := List.of_mem_filter hkvm
        have hpk := mergeInto_keys_hasKey pf (objFields t) kw hkwm
        rw [hkve] at hfk
        rw [hkwe] at hpk
        rw [hpk] at hfk
        simp at hfk
    · rw [wfFields_iff_forall]
      intro kv hm
      rcases List.mem_append.mp hm with hm1 | hm2
      · exact (wfFields_iff_forall (objFields t)).mp htf kv (List.mem_of_mem_filter hm1)
      · exact wf_mergeInto pf (objFields t) htf hp2.2 kv hm2
termination_by p t h1 h2 => sizeOf p

theorem wf_mergeInto : (pf tf : List (String × JSON)) →
    wfFields tf = true → wfFields pf = true →
    ∀ kv ∈ mergeInto tf pf, wf kv.2 = true
  | [], tf, _, _ => by
    intro kv hm
    simp [mergeInto] at hm
  | (k, v) :: rest, tf, htf, hpf => by
    have hw2 : (wf v && wfFields rest) = true := hpf
    rw [Bool.and_eq_true] at hw2
    intro kv hm
    cases hn : isNull v with
    | true =>
      rw [show mergeInto tf ((k, v) :: rest) = mergeInto tf rest by
        simp only [mergeInto, hn, if_true]] at hm
      exact wf_mergeInto rest tf htf hw2.2 kv hm
    | false =>
      rw [show mergeInto tf ((k, v) :: rest)
            = (k, mergePatch (lookupD tf k) v) :: mergeInto tf rest by
        simp only [mergeInto, hn, Bool.false_eq_true, if_false]] at hm
      rcases List.mem_cons.mp hm with he | hm2
      · rw [he]
        exact wf_mergePatch v (lookupD tf k) (wf_lookupD tf k htf) hw2.1
      · exact wf_mergeInto rest tf htf hw2.2 kv hm2
termination_by pf tf h1 h2 => sizeOf pf

end


theorem sortVals_keys : ∀ (fs : List (String × JSON)),
    (sortVals fs).map (fun kv => kv.1) = fs.map (fun kv => kv.1) := by
  intro fs
  induction fs with
  | nil => rfl
  | cons kv t ih =>
    rcases kv with ⟨k, v⟩
    simp only [sortVals, List.map_cons]
    rw [ih]

theorem sortVals_mem : ∀ (fs : List (String × JSON)) (kv : String × JSON),
    kv ∈ sortVals fs → ∃ k v0, kv = (k, sortJSON v0) ∧ (k, v0) ∈ fs := by
  intro fs
  induction fs with
  | nil => intro kv hm; simp [sortVals] at hm
  | cons hd t ih =>
    intro kv hm
    rcases hd with ⟨k, v⟩
    rw [show sortVals ((k, v) :: t) = (k, sortJSON v) :: sortVals t from rfl] at hm
    rcases List.mem_cons.mp hm with he | hm2
    · exact ⟨k, v, he, by simp⟩
    · rcases ih kv hm2 with ⟨k2, v2, he2, hm3⟩
      exact ⟨k2, v2, he2, by simp [hm3]⟩

theorem orderedFields_of_forall : ∀ (l : List (String × JSON)),
    (∀ kv ∈ l, ordered kv.2 = true) → orderedFields l = true := by
  intro l
  induction l with
  | nil => intro _; rfl
  | cons kv t ih =>
    intro h
    rcases kv with ⟨k, v⟩
    rw [show orderedFields ((k, v) :: t) = (ordered v && orderedFields t) from rfl,
      Bool.and_eq_true]
    exact ⟨h (k, v) (by simp), ih (fun z hz => h z (by simp [hz]))⟩

mutual

theorem sortJSON_ordered : (v : JSON) → wf v = true → ordered (sortJSON v) = true
  | .null, _ => rfl
  | .bool b, _ => rfl
  | .num n, _ => rfl
  | .str s, _ => rfl
  | .arr xs, h => by
    rw [show sortJSON (JSON.arr xs) = JSON.arr (sortList xs) from rfl]
    rw [show ordered (JSON.arr (sortList xs)) = orderedList (sortList xs) from rfl]
    exact sortList_ordered xs h
  | .obj fs, h => by
    have h2 : (distinctKeys (fs.map (fun kv => kv.1)) && wfFields fs) = true := h
    rw [Bool.and_eq_true] at h2
    have hnd : (fs.map (fun kv => kv.1)).Nodup := (distinctKeys_eq_true_iff _).mp h2.1
    have hndv : ((sortVals fs).map (fun kv => kv.1)).Nodup := by
      rw [sortVals_keys]
      exact hnd
    rw [show sortJSON (JSON.obj fs) = JSON.obj (sortFields (sortVals fs)) from rfl]
    rw [show ordered (JSON.obj (sortFields (sortVals fs)))
        = (nameFirstOrdered ((sortFields (sortVals fs)).map (fun kv => kv.1))
            && orderedFields (sortFields (sortVals fs))) from rfl]
    rw [Bool.and_eq_true]
    constructor
    · exact sortFields_keys_ordered (sortVals fs) hndv
    · apply orderedFields_of_forall
      intro kv hm
      have hm2 : kv ∈ sortVals fs := (sortFields_perm (sortVals fs)).mem_iff.mp hm
      exact sortVals_allOrdered fs ((wfFields_iff_forall fs).mp h2.2) kv hm2
termination_by v h => sizeOf v

theorem sortList_ordered : (xs : List JSON) → wfList xs = true →
    orderedList (sortList xs) = true
  | [], _ => rfl
  | x :: t, h => by
    have h2 : (wf x && wfList t) = true := h
    rw [Bool.and_eq_true] at h2
    rw [show sortList (x :: t) = sortJSON x :: sortList t from rfl]
    rw [show orderedList (sortJSON x :: sortList t)
        = (ordered (sortJSON x) && orderedList (sortList t)) from rfl]
    rw [Bool.and_eq_true]
    exact ⟨sortJSON_ordered x h2.1, sortList_ordered t h2.2⟩
termination_by xs h => sizeOf xs

theorem sortVals_allOrdered : (fs : List (String × JSON)) →
    (∀ kv ∈ fs, wf kv.2 = true) →
    ∀ kv ∈ sortVals fs, ordered kv.2 = true
  | [], _ => by intro kv hm; simp [sortVals] at hm
  | (k, v) :: t, h => by
    intro kv hm
    rw [show sortVals ((k, v) :: t) = (k, sortJSON v) :: sortVals t from rfl] at hm
    rcases List.mem_cons.mp hm with he | hm2
    · rw [he]
      exact sortJSON_ordered v (h (k, v) (by simp))
    · exact sortVals_allOrdered t (fun z hz => h z (by simp [hz])) kv hm2
termination_by fs h => sizeOf fs

end

/-- C4: the file-level merge output is valid JSON (well-formed at every
nesting level), and its serialization — the key-sorted tree rendered with
one tab per nesting level — lists, inside every object at every nesting
level (including levels copied through unchanged from one side), the key
"name" first when present, with all remaining keys in ascending
lexicographic order; the serialized bytes are exactly the rendering of that
key-sorted tree. -/
theorem c4_serialization_ordering (af bf : List (String × JSON))
    (hA : wf (JSON.obj af) = true) (hB : wf (JSON.obj bf) = true) :
    wf (mergePatch (JSON.obj af) (JSON.obj bf)) = true
    ∧ ordered (sortJSON (mergePatch (JSON.obj af) (JSON.obj bf))) = true
    ∧ serializeJSON (mergePatch (JSON.obj af) (JSON.obj bf))
        = render (sortJSON (mergePatch (JSON.obj af) (JSON.obj bf))) 0 :=
  ⟨wf_mergePatch (JSON.obj bf) (JSON.obj af) hA hB,
   sortJSON_ordered _ (wf_mergePatch (JSON.obj bf) (JSON.obj af) hA hB),
   rfl⟩

/-- Witness for C4 at a merge with nested copy-through content. -/
theorem c4_serialization_ordering_witness :
    wf (JSON.obj [("zeta", .obj [("name", .str "n"), ("b", .num 1), ("a", .num 2)])]) = true
    ∧ wf (JSON.obj [("name", .str "top")]) = true
    ∧ ordered (sortJSON (mergePatch
        (JSON.obj [("zeta", .obj [("name", .str "n"), ("b", .num 1), ("a", .num 2)])])
        (JSON.obj [("name", .str "top")]))) = true :=
  ⟨rfl, rfl,
   (c4_serialization_ordering
      [("zeta", .obj [("name", .str "n"), ("b", .num 1), ("a", .num 2)])]
      [("name", .str "top")] rfl rfl).2.1⟩

end Skuid
